import Mathlib

/-!
# Verification of `SimpleCalendarApplication.py` (Simple-Calendar)

Shallow embedding of the calendar core from `src/SimpleCalendarApplication.py`.

Modelling choices:
* A Python `datetime` is modelled as a `Nat`: the number of microseconds since a
  fixed epoch that falls on a midnight (Python `datetime` has microsecond
  resolution and is totally ordered; all arithmetic in the source is exact).
* A Python `date` (calendar day) is modelled as a `Nat`: the number of days
  since the same epoch, so `t.date()` is `t / dayUs` with
  `dayUs = 86400000000` microseconds per day.
* `datetime.combine(day, datetime.min.time())` is `day * dayUs` and
  `datetime.combine(day, datetime.max.time())` is `day * dayUs + (dayUs - 1)`
  (23:59:59.999999 at microsecond resolution).
* A Python `timedelta` is a signed exact quantity, modelled as an `Int`
  (in microseconds).
* The dict `self.events : Dict[date, List[Event]]` is modelled as an
  association list in insertion order; Python dict assignment to a fresh key
  appends, assignment to an existing key replaces in place.
* `list.sort(key=lambda x: x.start_time)` is a stable ascending sort by
  `start_time`; `List.insertionSort` with `a.start_time ≤ b.start_time` is also
  a stable ascending sort by the same key, hence produces the identical list
  (a stable sort's output is uniquely determined by the key order).
* `add_event` returns `True`/`False` and distinguishes its two failure modes
  only by the printed message; we model the result as an inductive with the
  two rejection kinds (`invalidInterval` for "End time must be after start
  time", `overlap t` for "Event overlaps with 't'").
-/

/-- Microseconds in one calendar day. -/
def dayUs : Nat := 86400000000

/-- Microseconds in one hour. -/
def hourUs : Nat := 3600000000

/-- Microseconds in one minute. -/
def minuteUs : Nat := 60000000

/-- `Event` from the source: a title with a start and end `datetime`. -/
structure Event where
  title : String
  start_time : Nat
  end_time : Nat
deriving DecidableEq, Repr

/-- `Event.overlaps_with` (source line 13-14):
`self.start_time < other.end_time and self.end_time > other.start_time`. -/
def Event.overlaps_with (self other : Event) : Bool :=
  decide (self.start_time < other.end_time) && decide (self.end_time > other.start_time)

/-- The calendar's `events` dict, as an association list in insertion order. -/
abbrev Store := List (Nat × List Event)

/-- Dict lookup: `self.events[d]` when present. -/
def lookupDay (st : Store) (d : Nat) : Option (List Event) :=
  (st.find? (fun p => p.1 == d)).map (fun p => p.2)

/-- Dict assignment `self.events[d] = l`: replaces an existing key in place,
appends a fresh key at the end (Python dict insertion order). -/
def storeSet : Store → Nat → List Event → Store
  | [], d, l => [(d, l)]
  | p :: rest, d, l => if p.1 == d then (d, l) :: rest else p :: storeSet rest d l

/-- `Calendar.get_events_for_day` (source line 42-43): `self.events.get(day, [])`. -/
def get_events_for_day (st : Store) (day : Nat) : List Event :=
  (lookupDay st day).getD []

/-- Result of `Calendar.add_event`: the source returns `True` on success and
`False` on either rejection, distinguishing the rejections by printed message. -/
inductive AddResult where
  | ok
  | invalidInterval
  | overlap (conflictTitle : String)
deriving DecidableEq, Repr

/-- The sort key comparison used by `self.events[event_date].sort(key=lambda x: x.start_time)`. -/
def startLe (a b : Event) : Prop := a.start_time ≤ b.start_time

instance : DecidableRel startLe := fun _ _ => Nat.decLe _ _

instance : IsTotal Event startLe := ⟨fun _ _ => Nat.le_total _ _⟩

instance : IsTrans Event startLe := ⟨fun _ _ _ => Nat.le_trans⟩

/-- `Calendar.add_event` (source lines 20-40):
reject when `start_time >= end_time`; derive the day key from `start_time.date()`;
create the day's bucket if absent; reject on the first stored event that
`overlaps_with` the new one; otherwise append and sort the bucket by start time. -/
def add_event (cal : Store) (title : String) (s e : Nat) : AddResult × Store :=
  if s ≥ e then (.invalidInterval, cal)
  else
    let newEvent : Event := ⟨title, s, e⟩
    let event_date := s / dayUs
    let cal1 := if (lookupDay cal event_date).isSome then cal
                else storeSet cal event_date []
    let bucket := (lookupDay cal1 event_date).getD []
    match bucket.find? (fun ev => ev.overlaps_with newEvent) with
    | some conflicting => (.overlap conflicting.title, cal1)
    | none => (.ok, storeSet cal1 event_date ((bucket ++ [newEvent]).insertionSort startLe))

/-- `Calendar.get_remaining_events_for_day` (source lines 45-50). The source
reads `datetime.now()`; we pass `now` explicitly. If `day` is not `now`'s
calendar day, delegate to `get_events_for_day`; else keep the events whose
`end_time > now`. -/
def get_remaining_events_for_day (cal : Store) (day now : Nat) : List Event :=
  if day ≠ now / dayUs then get_events_for_day cal day
  else ((lookupDay cal day).getD []).filter (fun ev => decide (ev.end_time > now))

/-- The inner loop of `find_next_available_slot` (source lines 67-73): scan
consecutive pairs; on the first pair whose gap `next.start - current.end` is
at least `duration`, return `current.end`. -/
def scanGaps (duration : Int) : List Event → Option Nat
  | a :: b :: rest =>
      if duration ≤ (b.start_time : Int) - (a.end_time : Int) then some a.end_time
      else scanGaps duration (b :: rest)
  | _ => none

/-- `Calendar.find_next_available_slot` (source lines 52-82): for an absent or
empty day return day-start; else try the gap before the first event, then each
gap between consecutive events, then the gap from the last event's end to
`datetime.max.time()` of the day; return `none` when nothing fits. -/
def find_next_available_slot (cal : Store) (duration : Int) (day : Nat) : Option Nat :=
  match get_events_for_day cal day with
  | [] => some (day * dayUs)
  | first :: rest =>
    if duration ≤ (first.start_time : Int) - ((day * dayUs : Nat) : Int) then some (day * dayUs)
    else
      match scanGaps duration (first :: rest) with
      | some t => some t
      | none =>
        let last := (first :: rest).getLast (List.cons_ne_nil _ _)
        if duration ≤ ((day * dayUs + (dayUs - 1) : Nat) : Int) - (last.end_time : Int)
        then some last.end_time else none

/-- Run a sequence of `add_event` operations from a starting store
(`main` constructs the calendar empty and only mutates it via `add_event`). -/
def runOps (ops : List (String × Nat × Nat)) (st : Store) : Store :=
  ops.foldl (fun acc op => (add_event acc op.1 op.2.1 op.2.2).2) st

/-- The `find` command handler of the interactive loop (source lines 172-189):
a non-positive duration (in minutes) is rejected with "Duration must be
positive" before the core is called; otherwise the core's answer is relayed. -/
inductive FindOutcome where
  | rejectedNonPositive
  | slot (t : Nat)
  | noSlot
deriving DecidableEq, Repr

/-- CLI `find` command (source lines 172-189): guard `duration_min <= 0`, then
call `find_next_available_slot` with `timedelta(minutes=duration_min)`. -/
def find_command (cal : Store) (durationMin : Int) (day : Nat) : FindOutcome :=
  if durationMin ≤ 0 then .rejectedNonPositive
  else match find_next_available_slot cal (durationMin * (minuteUs : Int)) day with
    | some t => .slot t
    | none => .noSlot

/-- The gaps `[current.end, next.start)` between consecutive events, in order,
as `(gap start, gap length)` pairs; part of the spec's gap enumeration. -/
def betweenGaps : List Event → List (Nat × Int)
  | a :: b :: rest =>
      (a.end_time, (b.start_time : Int) - (a.end_time : Int)) :: betweenGaps (b :: rest)
  | _ => []

/-- The gap list described by the spec, in the order the spec prescribes:
first the gap from day-start (`day @ 00:00:00`) to the first event's start,
then the gap `[current.end, next.start)` for each consecutive pair in order,
then the gap from the last event's end to day-end (`day @ 23:59:59.999999`).
Each entry is `(gap start, gap length)`. Empty for a day with no events. -/
def specGaps (day : Nat) (evs : List Event) : List (Nat × Int) :=
  match evs with
  | [] => []
  | first :: rest =>
      let dayStart : Nat := day * dayUs
      let dayEnd : Nat := day * dayUs + (dayUs - 1)
      let last := (first :: rest).getLast (List.cons_ne_nil _ _)
      (dayStart, (first.start_time : Int) - (dayStart : Int)) ::
        (betweenGaps (first :: rest) ++
          [(last.end_time, (dayEnd : Int) - (last.end_time : Int))])

/-- The concrete day and events of the spec's 90-minute scenario
(`[09:00,10:00)` and `[12:30,13:30)` on one day), placed on day 7. -/
def demoDay : Nat := 7

/-- The `[09:00,10:00)` event of the scenario. -/
def evMorning : Event :=
  ⟨"Morning Meeting", demoDay * dayUs + 9 * hourUs, demoDay * dayUs + 10 * hourUs⟩

/-- The `[12:30,13:30)` event of the scenario. -/
def evLunch : Event :=
  ⟨"Lunch", demoDay * dayUs + 12 * hourUs + 30 * minuteUs,
    demoDay * dayUs + 13 * hourUs + 30 * minuteUs⟩

/-- The scenario store: day 7 holds exactly the two scenario events. -/
def scenarioStore : Store := [(demoDay, [evMorning, evLunch])]

/-- A one-event store on day 2, used to instantiate general theorems. -/
def demoStore1 : Store := [(2, [⟨"standup", 2 * dayUs + 9 * hourUs, 2 * dayUs + 10 * hourUs⟩])]

/-- First step of the midnight-crossing pair: add `A = [23:00 day0, 01:00 day1)`
to the empty store. -/
def crossStep1 : AddResult × Store := add_event [] "A" (23 * hourUs) (dayUs + hourUs)

/-- Second step: add `B = [00:00 day1, 00:30 day1)`, which overlaps `A` in real
time but starts on the next calendar day. -/
def crossStep2 : AddResult × Store := add_event crossStep1.2 "B" dayUs (dayUs + 30 * minuteUs)

theorem lookupDay_nil (d : Nat) : lookupDay [] d = none := rfl

theorem lookupDay_storeSet_self (st : Store) (d : Nat) (l : List Event) :
    lookupDay (storeSet st d l) d = some l := by
  induction st with
  | nil => simp [storeSet, lookupDay]
  | cons p rest ih =>
    unfold storeSet
    by_cases h : p.1 = d
    · simp [lookupDay, h]
    · rw [if_neg (by simpa using h)]
      unfold lookupDay
      rw [List.find?_cons_of_neg _ (by simpa using h)]
      exact ih

theorem lookupDay_storeSet_ne (st : Store) (d d' : Nat) (l : List Event) (h : d' ≠ d) :
    lookupDay (storeSet st d l) d' = lookupDay st d' := by
  induction st with
  | nil =>
    simp only [storeSet, lookupDay, List.find?_nil]
    rw [List.find?_cons_of_neg _ (by simpa using Ne.symm h)]
    simp
  | cons p rest ih =>
    unfold storeSet
    by_cases hp : p.1 = d
    · rw [if_pos (by simpa using hp)]
      unfold lookupDay
      rw [List.find?_cons_of_neg _ (by simpa using Ne.symm h),
        List.find?_cons_of_neg _ (by simp [hp, Ne.symm h])]
    · rw [if_neg (by simpa using hp)]
      by_cases hp' : p.1 = d'
      · unfold lookupDay
        rw [List.find?_cons_of_pos _ (by simpa using hp'),
          List.find?_cons_of_pos _ (by simpa using hp')]
      · unfold lookupDay
        rw [List.find?_cons_of_neg _ (by simpa using hp'),
          List.find?_cons_of_neg _ (by simpa using hp')]
        exact ih

/-- C4. For every store, title, and timestamps with `start >= end`, `add_event`
rejects with `InvalidInterval` and returns the store exactly unchanged. -/
theorem add_event_invalid_interval (cal : Store) (title : String) (s e : Nat)
    (h : s ≥ e) : add_event cal title s e = (.invalidInterval, cal) := by
  unfold add_event
  rw [if_pos h]

theorem add_event_invalid_interval_witness :
    add_event [] "x" 5 5 = (.invalidInterval, []) :=
  add_event_invalid_interval [] "x" 5 5 (by decide)

/-- C5. `get_remaining_events_for_day` returns the full listing when `day` is
not `now`'s calendar day; on `now`'s own day it returns exactly the events
with `end_time > now`, as a filter of the day's listing (hence a subsequence
preserving the original order). -/
theorem remaining_events_spec (cal : Store) (day now : Nat) :
    get_remaining_events_for_day cal day now
      = (if day = now / dayUs
         then (get_events_for_day cal day).filter (fun ev => decide (ev.end_time > now))
         else get_events_for_day cal day)
    ∧ (get_remaining_events_for_day cal day now).Sublist (get_events_for_day cal day) := by
  unfold get_remaining_events_for_day
  by_cases h : day = now / dayUs
  · simp [h, get_events_for_day, List.filter_sublist]
  · simp [h]

/-- C9. For every day whose stored listing is empty, `find_next_available_slot`
returns day-start (`day @ 00:00:00`) for every duration whatsoever, including
durations that cannot fit within a day. -/
theorem find_slot_empty_day (cal : Store) (day : Nat)
    (h : get_events_for_day cal day = []) (duration : Int) :
    find_next_available_slot cal duration day = some (day * dayUs) := by
  unfold find_next_available_slot
  rw [h]

theorem find_slot_empty_day_witness :
    find_next_available_slot [] ((25 * hourUs : Nat) : Int) 3 = some (3 * dayUs) :=
  find_slot_empty_day [] 3 rfl ((25 * hourUs : Nat) : Int)

/-- C6 counterexample. On the scenario store the code does NOT return 10:00 for
a 90-minute request. -/
theorem scenario_slot_not_ten :
    find_next_available_slot scenarioStore ((90 * minuteUs : Nat) : Int) demoDay
      ≠ some (demoDay * dayUs + 10 * hourUs) := by decide

/-- C6 amended. On the scenario store a 90-minute request returns day-start
(`day @ 00:00:00`): the gap from day-start to 09:00 is 540 minutes, qualifies,
and is checked first, so the 10:00 gap is never reached. -/
theorem scenario_slot_returns_day_start :
    find_next_available_slot scenarioStore ((90 * minuteUs : Nat) : Int) demoDay
      = some (demoDay * dayUs) := by decide

/-- C7 counterexample. The core accepts a non-positive duration and produces a
slot: on an empty store and day 0, duration -5 returns day-start, with no
`InvalidDuration` signal anywhere in the core's result type. -/
theorem core_accepts_nonpositive_duration :
    find_next_available_slot [] (-5) 0 = some 0 := by decide

/-- C7 amended. Non-positive durations are rejected by the CLI `find` handler
("Duration must be positive") before the core is called, not by the core
itself. -/
theorem find_command_rejects_nonpositive (cal : Store) (day : Nat) (durationMin : Int)
    (h : durationMin ≤ 0) : find_command cal durationMin day = .rejectedNonPositive := by
  unfold find_command
  rw [if_pos h]

theorem find_command_rejects_nonpositive_witness :
    find_command [] (-3) 0 = .rejectedNonPositive :=
  find_command_rejects_nonpositive [] 0 (-3) (by decide)

/-- C10. Overlap checking only inspects the start-date bucket: the event
`A = [23:00 day0, 01:00 day1)` and the event `B = [00:00 day1, 00:30 day1)`
overlap in real time, yet their start dates differ, both `add_event` calls
succeed, and both events are stored under their respective start days. -/
theorem cross_midnight_overlap_admitted :
    crossStep1.1 = .ok ∧ crossStep2.1 = .ok
    ∧ 23 * hourUs < dayUs + 30 * minuteUs ∧ dayUs < dayUs + hourUs
    ∧ (23 * hourUs) / dayUs ≠ dayUs / dayUs
    ∧ (⟨"A", 23 * hourUs, dayUs + hourUs⟩ : Event)
        ∈ get_events_for_day crossStep2.2 ((23 * hourUs) / dayUs)
    ∧ (⟨"B", dayUs, dayUs + 30 * minuteUs⟩ : Event)
        ∈ get_events_for_day crossStep2.2 (dayUs / dayUs) := by decide

/-- Case analysis of `add_event` on a valid interval: either the start day's
bucket is absent (fresh bucket, insert succeeds), or it exists and the call
is rejected by the first overlapping stored event, or it exists and the
insert succeeds into it. -/
theorem add_event_valid_cases (cal : Store) (title : String) (s e : Nat) (hse : s < e) :
    (lookupDay cal (s / dayUs) = none ∧
       add_event cal title s e =
         (.ok, storeSet (storeSet cal (s / dayUs) []) (s / dayUs)
            (([] ++ [(⟨title, s, e⟩ : Event)]).insertionSort startLe)))
    ∨ (∃ l, lookupDay cal (s / dayUs) = some l ∧
        ((∃ c, l.find? (fun ev => ev.overlaps_with ⟨title, s, e⟩) = some c ∧
            add_event cal title s e = (.overlap c.title, cal))
         ∨ (l.find? (fun ev => ev.overlaps_with ⟨title, s, e⟩) = none ∧
            add_event cal title s e =
              (.ok, storeSet cal (s / dayUs)
                ((l ++ [(⟨title, s, e⟩ : Event)]).insertionSort startLe))))) := by
  unfold add_event
  rw [if_neg (by omega)]
  cases hld : lookupDay cal (s / dayUs) with
  | none =>
    left
    refine ⟨rfl, ?_⟩
    simp only [hld, Option.isSome_none, Bool.false_eq_true, if_false,
      lookupDay_storeSet_self, Option.getD_some, List.find?_nil]
  | some l =>
    right
    refine ⟨l, rfl, ?_⟩
    simp only [hld, Option.isSome_some, if_true, Option.getD_some]
    cases hf : l.find? (fun ev => ev.overlaps_with ⟨title, s, e⟩) with
    | none => right; exact ⟨rfl, rfl⟩
    | some c => left; exact ⟨c, rfl, rfl⟩

/-- `Event.overlaps_with` decides exactly the half-open overlap condition. -/
theorem overlaps_with_iff (a b : Event) :
    a.overlaps_with b = true ↔ a.start_time < b.end_time ∧ b.start_time < a.end_time := by
  simp [Event.overlaps_with, and_comm]

/-- C2. For a valid new interval `[s,e)` (`s < e`), `add_event` rejects with
`Overlap` exactly when some event already stored for `s`'s day satisfies
`ev.start < e` and `s < ev.end` (half-open semantics); any rejection leaves
the store exactly unchanged, so an abutting event — one that merely touches
endpoints and hence overlaps nothing — is always accepted. -/
theorem add_event_overlap_iff (cal : Store) (title : String) (s e : Nat) (hse : s < e) :
    ((∃ t, (add_event cal title s e).1 = .overlap t) ↔
      ∃ ev ∈ get_events_for_day cal (s / dayUs), ev.start_time < e ∧ s < ev.end_time)
    ∧ ((add_event cal title s e).1 ≠ .ok → (add_event cal title s e).2 = cal) := by
  rcases add_event_valid_cases cal title s e hse with ⟨hld, heq⟩ |
    ⟨l, hld, ⟨c, hf, heq⟩ | ⟨hf, heq⟩⟩
  · rw [heq]
    constructor
    · constructor
      · rintro ⟨t, ht⟩; cases ht
      · rintro ⟨ev, hmem, -⟩
        rw [get_events_for_day, hld] at hmem
        simp at hmem
    · intro hne; cases hne rfl
  · rw [heq]
    refine ⟨⟨fun _ => ?_, fun _ => ⟨c.title, rfl⟩⟩, fun _ => rfl⟩
    refine ⟨c, ?_, ?_⟩
    · rw [get_events_for_day, hld, Option.getD_some]
      exact List.mem_of_find?_eq_some hf
    · have hov := List.find?_some hf
      rw [overlaps_with_iff] at hov
      exact ⟨hov.1, hov.2⟩
  · rw [heq]
    constructor
    · constructor
      · rintro ⟨t, ht⟩; cases ht
      · rintro ⟨ev, hmem, hlt1, hlt2⟩
        rw [get_events_for_day, hld, Option.getD_some] at hmem
        rw [List.find?_eq_none] at hf
        exact (hf ev hmem (by rw [overlaps_with_iff]; exact ⟨hlt1, hlt2⟩)).elim
    · intro hne; cases hne rfl

theorem add_event_overlap_iff_witness :
    ((∃ t, (add_event [] "m" 1 2).1 = .overlap t) ↔
      ∃ ev ∈ get_events_for_day [] (1 / dayUs), ev.start_time < 2 ∧ 1 < ev.end_time)
    ∧ ((add_event [] "m" 1 2).1 ≠ .ok → (add_event [] "m" 1 2).2 = []) :=
  add_event_overlap_iff [] "m" 1 2 (by decide)

/-- C8. A successful `add_event` files the event under the calendar date of
`start` only: afterwards the event is in `events_for_day` of `start`'s date,
and the listing of every other day is exactly what it was before the insert
(no hypothesis relates `end` to that date — it may fall on a later day). -/
theorem add_event_files_under_start_day (cal : Store) (title : String) (s e : Nat)
    (h : (add_event cal title s e).1 = .ok) :
    (⟨title, s, e⟩ : Event) ∈ get_events_for_day (add_event cal title s e).2 (s / dayUs)
    ∧ ∀ d, d ≠ s / dayUs →
        get_events_for_day (add_event cal title s e).2 d = get_events_for_day cal d := by
  by_cases hse : s < e
  · rcases add_event_valid_cases cal title s e hse with ⟨hld, heq⟩ |
      ⟨l, hld, ⟨c, hf, heq⟩ | ⟨hf, heq⟩⟩
    · rw [heq]
      constructor
      · rw [get_events_for_day, lookupDay_storeSet_self, Option.getD_some,
          List.mem_insertionSort]
        simp
      · intro d hd
        rw [get_events_for_day, lookupDay_storeSet_ne _ _ _ _ hd,
          lookupDay_storeSet_ne _ _ _ _ hd]
        rfl
    · rw [heq] at h; cases h
    · rw [heq]
      constructor
      · rw [get_events_for_day, lookupDay_storeSet_self, Option.getD_some,
          List.mem_insertionSort]
        simp
      · intro d hd
        rw [get_events_for_day, lookupDay_storeSet_ne _ _ _ _ hd]
        rfl
  · rw [add_event_invalid_interval cal title s e (by omega)] at h
    cases h

theorem add_event_files_under_start_day_witness :
    (⟨"A", 23 * hourUs, dayUs + hourUs⟩ : Event)
        ∈ get_events_for_day (add_event [] "A" (23 * hourUs) (dayUs + hourUs)).2
            ((23 * hourUs) / dayUs)
    ∧ get_events_for_day (add_event [] "A" (23 * hourUs) (dayUs + hourUs)).2 1
        = get_events_for_day [] 1 := by
  have h := add_event_files_under_start_day [] "A" (23 * hourUs) (dayUs + hourUs) (by decide)
  exact ⟨h.1, h.2 1 (by decide)⟩

/-- Two events do not overlap (half-open): one starts at or after the other ends. -/
def NonOverlap (a b : Event) : Prop :=
  a.start_time ≥ b.end_time ∨ b.start_time ≥ a.end_time

/-- The spec's per-day store invariant: sorted ascending by start, pairwise
non-overlapping. -/
def SortedNonOverlap (l : List Event) : Prop :=
  l.Pairwise (fun a b => startLe a b ∧ NonOverlap a b)

/-- Every day's listing of a store satisfies the invariant. -/
def GoodStore (st : Store) : Prop :=
  ∀ d, SortedNonOverlap (get_events_for_day st d)

theorem nonOverlap_symm {a b : Event} (h : NonOverlap a b) : NonOverlap b a := h.symm

/-- Inserting (append + stable sort) an event that overlaps nothing into an
invariant bucket keeps the invariant. -/
theorem sortedNonOverlap_insert (l : List Event) (ev : Event)
    (hl : SortedNonOverlap l)
    (hno : ∀ x ∈ l, NonOverlap x ev) :
    SortedNonOverlap ((l ++ [ev]).insertionSort startLe) := by
  have hsorted : List.Sorted startLe ((l ++ [ev]).insertionSort startLe) :=
    List.sorted_insertionSort startLe _
  have hperm : List.Perm ((l ++ [ev]).insertionSort startLe) (l ++ [ev]) :=
    List.perm_insertionSort startLe _
  have hnovAppend : (l ++ [ev]).Pairwise NonOverlap := by
    rw [List.pairwise_append]
    refine ⟨hl.imp (fun h => h.2), List.pairwise_singleton _ _, ?_⟩
    intro a ha b hb
    rw [List.mem_singleton] at hb
    subst hb
    exact hno a ha
  have hnov : ((l ++ [ev]).insertionSort startLe).Pairwise NonOverlap :=
    (hperm.pairwise_iff (fun h => nonOverlap_symm h)).mpr hnovAppend
  exact hsorted.and hnov

/-- `add_event` preserves the store invariant. -/
theorem goodStore_add_event (cal : Store) (title : String) (s e : Nat)
    (hg : GoodStore cal) : GoodStore (add_event cal title s e).2 := by
  by_cases hse : s < e
  · rcases add_event_valid_cases cal title s e hse with ⟨hld, heq⟩ |
      ⟨l, hld, ⟨c, hf, heq⟩ | ⟨hf, heq⟩⟩
    · rw [heq]
      intro d
      by_cases hd : d = s / dayUs
      · subst hd
        rw [get_events_for_day, lookupDay_storeSet_self, Option.getD_some]
        apply sortedNonOverlap_insert
        · exact List.Pairwise.nil
        · intro x hx; cases hx
      · rw [get_events_for_day, lookupDay_storeSet_ne _ _ _ _ hd,
          lookupDay_storeSet_ne _ _ _ _ hd]
        exact hg d
    · rw [heq]; exact hg
    · rw [heq]
      intro d
      by_cases hd : d = s / dayUs
      · subst hd
        rw [get_events_for_day, lookupDay_storeSet_self, Option.getD_some]
        apply sortedNonOverlap_insert
        · have hgd := hg (s / dayUs)
          rw [get_events_for_day, hld, Option.getD_some] at hgd
          exact hgd
        · intro x hx
          rw [List.find?_eq_none] at hf
          have hnov := hf x hx
          rw [overlaps_with_iff] at hnov
          unfold NonOverlap
          omega
      · rw [get_events_for_day, lookupDay_storeSet_ne _ _ _ _ hd]
        exact hg d
  · rw [add_event_invalid_interval cal title s e (by omega)]
    exact hg

theorem goodStore_empty : GoodStore [] := fun _ => List.Pairwise.nil

theorem goodStore_runOps (ops : List (String × Nat × Nat)) (st : Store)
    (hg : GoodStore st) : GoodStore (runOps ops st) := by
  induction ops generalizing st with
  | nil => exact hg
  | cons op rest ih =>
    have : runOps (op :: rest) st = runOps rest (add_event st op.1 op.2.1 op.2.2).2 := by
      simp [runOps]
    rw [this]
    exact ih _ (goodStore_add_event _ _ _ _ hg)

/-- C3. Starting from the empty store, after any sequence of `add_event`
operations, every day's listing is sorted ascending by start and any two
distinct stored events of the day satisfy
`a.start >= b.end OR b.start >= a.end`. -/
theorem store_invariant (ops : List (String × Nat × Nat)) (d : Nat) :
    (get_events_for_day (runOps ops []) d).Pairwise
      (fun a b => a.start_time ≤ b.start_time ∧
        (a.start_time ≥ b.end_time ∨ b.start_time ≥ a.end_time)) :=
  goodStore_runOps ops [] goodStore_empty d

/-- The between-events scan is exactly a first-match search over the
between-events gap list. -/
theorem scanGaps_eq (dur : Int) : ∀ l : List Event,
    scanGaps dur l = ((betweenGaps l).find? (fun g => decide (dur ≤ g.2))).map Prod.fst
  | [] => by simp [scanGaps, betweenGaps]
  | [a] => by simp [scanGaps, betweenGaps]
  | a :: b :: rest => by
    simp only [scanGaps, betweenGaps]
    by_cases hq : dur ≤ (b.start_time : Int) - (a.end_time : Int)
    · rw [if_pos hq, List.find?_cons_of_pos _ (by simpa using hq), Option.map_some']
    · rw [if_neg hq, List.find?_cons_of_neg _ (by simpa using hq)]
      exact scanGaps_eq dur (b :: rest)

/-- Unfolding of `specGaps` on a nonempty listing. -/
theorem specGaps_cons (day : Nat) (first : Event) (rest : List Event) :
    specGaps day (first :: rest)
      = (day * dayUs, (first.start_time : Int) - ((day * dayUs : Nat) : Int)) ::
        (betweenGaps (first :: rest) ++
          [(((first :: rest).getLast (List.cons_ne_nil _ _)).end_time,
            ((day * dayUs + (dayUs - 1) : Nat) : Int)
              - ((((first :: rest).getLast (List.cons_ne_nil _ _)).end_time : Nat) : Int))]) := rfl

/-- The gap starts of the between-events gaps, followed by the last event's
end, are exactly the events' ends in order. -/
theorem betweenGaps_fst : ∀ (a : Event) (l : List Event),
    (betweenGaps (a :: l)).map Prod.fst
        ++ [((a :: l).getLast (List.cons_ne_nil _ _)).end_time]
      = (a :: l).map Event.end_time
  | _, [] => by simp [betweenGaps]
  | a, b :: l => by
    have ih := betweenGaps_fst b l
    simp only [betweenGaps, List.map_cons, List.cons_append,
      List.getLast_cons (List.cons_ne_nil b l)]
    rw [ih, List.map_cons]

/-- If every event is a valid interval, consecutive events do not overlap, and
`c` is at most the first start, then `c` followed by the events' ends is
non-decreasing. -/
theorem chain_le_ends : ∀ (c : Nat) (l : List Event),
    (∀ ev ∈ l, ev.start_time ≤ ev.end_time) →
    List.Chain' (fun a b => a.end_time ≤ b.start_time) l →
    (∀ ev ∈ l.head?, c ≤ ev.start_time) →
    List.Chain' (fun x y => x ≤ y) (c :: l.map Event.end_time)
  | c, [], _, _, _ => List.chain'_singleton c
  | c, a :: l, hvalid, hchain, hhead => by
    rw [List.map_cons, List.chain'_cons]
    refine ⟨Nat.le_trans (hhead a rfl) (hvalid a (List.mem_cons_self a l)), ?_⟩
    exact chain_le_ends a.end_time l
      (fun ev h => hvalid ev (List.mem_cons_of_mem a h))
      (List.chain'_cons'.mp hchain).2
      (List.chain'_cons'.mp hchain).1

/-- In a list whose keys are pairwise non-decreasing, the first match of
`find?` has the least key among all matches. -/
theorem find?_min_fst (p : Nat × Int → Bool) :
    ∀ (l : List (Nat × Int)) (x : Nat × Int),
      l.Pairwise (fun g h => g.1 ≤ h.1) → l.find? p = some x →
      ∀ g ∈ l, p g = true → x.1 ≤ g.1
  | [], _, _, hfind => by cases hfind
  | a :: t, x, hpw, hfind => by
    intro g hg hp
    by_cases ha : p a = true
    · rw [List.find?_cons_of_pos _ ha, Option.some.injEq] at hfind
      subst hfind
      rcases List.mem_cons.mp hg with rfl | hgt
      · exact Nat.le_refl _
      · exact (List.pairwise_cons.mp hpw).1 g hgt
    · rw [List.find?_cons_of_neg _ ha] at hfind
      rcases List.mem_cons.mp hg with rfl | hgt
      · rw [hp] at ha; exact (ha rfl).elim
      · exact find?_min_fst p t x (List.pairwise_cons.mp hpw).2 hfind g hgt hp

/-- C1. For every day whose listing is nonempty — with the listing satisfying
the stored-state facts that every event is a valid interval, starts on that
day, and consecutive events do not overlap — `find_next_available_slot`
returns exactly the start of the first gap of length `>= duration` in the
spec's enumeration order (day-start gap, then each between-events gap, then
the gap up to `day @ 23:59:59.999999`), returning `none` (`NoSlotFound`) when
no gap qualifies; and any returned timestamp is the earliest qualifying gap
start, never a later (possibly larger) one. -/
theorem find_slot_first_fit (cal : Store) (dur : Int) (day : Nat)
    (hne : get_events_for_day cal day ≠ [])
    (hvalid : ∀ ev ∈ get_events_for_day cal day, ev.start_time ≤ ev.end_time)
    (hday : ∀ ev ∈ get_events_for_day cal day, day * dayUs ≤ ev.start_time)
    (hchain : List.Chain' (fun a b => a.end_time ≤ b.start_time)
      (get_events_for_day cal day)) :
    find_next_available_slot cal dur day
      = ((specGaps day (get_events_for_day cal day)).find?
          (fun g => decide (dur ≤ g.2))).map Prod.fst
    ∧ ∀ t, find_next_available_slot cal dur day = some t →
        ∀ g ∈ specGaps day (get_events_for_day cal day), dur ≤ g.2 → t ≤ g.1 := by
  obtain ⟨first, rest, heval⟩ := List.exists_cons_of_ne_nil hne
  have hmain : find_next_available_slot cal dur day
      = ((specGaps day (get_events_for_day cal day)).find?
          (fun g => decide (dur ≤ g.2))).map Prod.fst := by
    rw [heval, specGaps_cons]
    unfold find_next_available_slot
    rw [heval]
    dsimp only
    by_cases h1 : dur ≤ (first.start_time : Int) - ((day * dayUs : Nat) : Int)
    · rw [if_pos h1, List.find?_cons_of_pos _ (by simpa using h1), Option.map_some']
    · rw [if_neg h1, List.find?_cons_of_neg _ (by simpa using h1), List.find?_append]
      cases hscan : scanGaps dur (first :: rest) with
      | some t =>
        rw [scanGaps_eq] at hscan
        obtain ⟨g, hg, hgt⟩ := Option.map_eq_some'.mp hscan
        rw [hg, Option.or_some, Option.map_some', hgt]
      | none =>
        rw [scanGaps_eq, Option.map_eq_none'] at hscan
        rw [hscan, Option.none_or]
        by_cases h2 : dur ≤ ((day * dayUs + (dayUs - 1) : Nat) : Int)
            - ((((first :: rest).getLast (List.cons_ne_nil _ _)).end_time : Nat) : Int)
        · rw [if_pos h2, List.find?_cons_of_pos _ (by simpa using h2), Option.map_some']
        · rw [if_neg h2, List.find?_cons_of_neg _ (by simpa using h2), List.find?_nil,
            Option.map_none']
  refine ⟨hmain, ?_⟩
  intro t ht g hg hq
  have hfst : (specGaps day (get_events_for_day cal day)).map Prod.fst
      = (day * dayUs) :: (get_events_for_day cal day).map Event.end_time := by
    rw [heval, specGaps_cons, List.map_cons, List.map_append]
    have : (List.map Prod.fst
        [(((first :: rest).getLast (List.cons_ne_nil _ _)).end_time,
          ((day * dayUs + (dayUs - 1) : Nat) : Int)
            - ((((first :: rest).getLast (List.cons_ne_nil _ _)).end_time : Nat) : Int))])
        = [((first :: rest).getLast (List.cons_ne_nil _ _)).end_time] := rfl
    rw [this, betweenGaps_fst first rest]
  have hchainFst : List.Chain' (fun x y => x ≤ y)
      ((specGaps day (get_events_for_day cal day)).map Prod.fst) := by
    rw [hfst]
    apply chain_le_ends _ _ hvalid hchain
    intro ev hev
    apply hday
    rw [heval] at hev ⊢
    cases hev
    exact List.mem_cons_self _ _
  have hpw : (specGaps day (get_events_for_day cal day)).Pairwise
      (fun g h => g.1 ≤ h.1) := by
    rw [← List.pairwise_map (f := Prod.fst)]
    exact List.chain'_iff_pairwise.mp hchainFst
  rw [hmain] at ht
  obtain ⟨g0, hg0, hg0t⟩ := Option.map_eq_some'.mp ht
  rw [← hg0t]
  exact find?_min_fst _ _ _ hpw hg0 g hg (by simpa using hq)

theorem find_slot_first_fit_witness :
    (find_next_available_slot demoStore1 ((2 * hourUs : Nat) : Int) 2
      = ((specGaps 2 (get_events_for_day demoStore1 2)).find?
          (fun g => decide (((2 * hourUs : Nat) : Int) ≤ g.2))).map Prod.fst)
    ∧ ∀ t, find_next_available_slot demoStore1 ((2 * hourUs : Nat) : Int) 2 = some t →
        ∀ g ∈ specGaps 2 (get_events_for_day demoStore1 2),
          ((2 * hourUs : Nat) : Int) ≤ g.2 → t ≤ g.1 :=
  find_slot_first_fit demoStore1 ((2 * hourUs : Nat) : Int) 2
    (by decide) (by decide) (by decide)
    (by
      have h : get_events_for_day demoStore1 2
          = [⟨"standup", 2 * dayUs + 9 * hourUs, 2 * dayUs + 10 * hourUs⟩] := rfl
      rw [h]
      exact List.chain'_singleton _)
